import Mathlib

/-!
Verification development for the Slack patch browser extension.

The file embeds, as executable Lean definitions, the extension's
DOM↔markup converter (`extractTextWithFormatting`, `convertMarkdownToHtml`
and their helpers), the host event bridge (`setInputText`,
`dispatchInputEvents`), the overlay modal's keyboard handler and teardown
(`handleKeyboardShortcut`, `hide`, `disableSlackInputs`,
`restoreSlackInputs`) and the content script's shortcut handler
(`handleKeyDown`), and proves or refutes the specified properties.

Strings are modelled as `List Char`.  String-scanning functions that the
original code writes as loops carry an explicit fuel parameter so that
they are structurally recursive and evaluate inside the kernel; the fuel
is instantiated at a length bound that lemmas show is sufficient.
-/

namespace SlackPatch

abbrev Str := List Char

def str (s : String) : Str := s.data

/-- The attributes of a DOM element that the converter reads:
`href` on anchors and the emoji-resolution attributes on images
(`data-stringify-emoji`, `aria-label`, `alt`, `data-emoji`).
`none` models an absent attribute. -/
structure Attrs where
  href : Option Str := none
  stringifyEmoji : Option Str := none
  ariaLabel : Option Str := none
  alt : Option Str := none
  dataEmoji : Option Str := none
deriving DecidableEq

def noAttrs : Attrs := {}

/-- A DOM node: a text node, an element (tag name as the uppercase
`tagName`, attributes, child nodes), or any other node kind (comment,
document fragment, ...), for which `extractTextWithFormatting` returns
the empty string. -/
inductive DomNode where
  | text (s : Str)
  | elem (tag : Str) (attrs : Attrs) (children : List DomNode)
  | other

/-- Is the node an element?  (`parent.children` counts only elements.) -/
def DomNode.isElem : DomNode → Bool
  | .elem _ _ _ => true
  | _ => false

/-- JS `\s`-style whitespace test used by `trim()` and the emoji regex
(restricted to the ASCII whitespace that occurs in this dialect). -/
def isWs (c : Char) : Bool := c.isWhitespace

/-- `s` consists only of whitespace, i.e. JS `s.trim()` is falsy. -/
def isBlank (s : Str) : Bool := s.all isWs

/-- Does `s` match the optional suffix `\s+絵文字` of the emoji regex
`/^(.+?)(?:\s+絵文字)?$/`: one or more whitespace characters followed by
exactly `絵文字`? -/
def isEmojiSuffix (s : Str) : Bool :=
  match s with
  | [] => false
  | c :: _ => isWs c && decide (s.dropWhile isWs = str "絵文字")

/-- The capture group of `/^(.+?)(?:\s+絵文字)?$/`: the lazy `(.+?)`
takes the shortest nonempty prefix whose complement is empty or matches
`\s+絵文字` (i.e. a trailing localized "emoji" word is stripped).
JS `.` does not match line terminators, so a newline that the optional
suffix cannot absorb makes the whole regex fail (`none`). -/
def emojiCapture : Str → Option Str
  | [] => none
  | c :: rest =>
    if c = '\n' ∨ c = '\r' then none
    else if rest = [] ∨ isEmojiSuffix rest then some [c]
    else (emojiCapture rest).map (fun cap => c :: cap)

/-- Decimal representation of a natural number, as the JS template
`${index}` produces. -/
def natStr (n : Nat) : Str := (toString n).data

/-- The `IMG` branch of `extractTextWithFormatting` (emoji resolution,
lines 156–198): `data-stringify-emoji` first, then `aria-label`
(returned unchanged when already `:name:`-shaped, else stripped of a
trailing `絵文字` word and wrapped in colons), then `alt` with the same
transform (falling back to `':' + alt + ':'` when the regex fails on a
line terminator), then `data-emoji` wrapped in colons, else empty.  JS
truthiness makes an empty attribute value fall through; an `aria-label`
whose regex match fails also falls through (`if (emojiMatch)`). -/
def imgEmoji (attrs : Attrs) : Str :=
  let fromData :=
    match attrs.dataEmoji with
    | some d => if d = [] then [] else ':' :: d ++ [':']
    | none => []
  let fromAlt :=
    match attrs.alt with
    | some a =>
      if a = [] then fromData
      else if a.head? = some ':' ∧ a.getLast? = some ':' then a
      else
        match emojiCapture a with
        | some cap => ':' :: cap ++ [':']
        | none => ':' :: a ++ [':']
    | none => fromData
  let fromAria :=
    match attrs.ariaLabel with
    | some l =>
      if l = [] then fromAlt
      else if l.head? = some ':' ∧ l.getLast? = some ':' then l
      else
        match emojiCapture l with
        | some cap => ':' :: cap ++ [':']
        | none => fromAlt
    | none => fromAlt
  match attrs.stringifyEmoji with
  | some v => if v = [] then fromAria else v
  | none => fromAria

mutual
/-- Embedding of `extractTextWithFormatting` (lines 107–247) on one
node.  `pt` is the parent element's tag (`none` when the parent is not
an element, e.g. a document fragment) and `i` the node's 1-based index
among the parent's *element* children (`parent.children`), used for
`LI` numbering inside `OL`. -/
def extractNode (pt : Option Str) (i : Nat) : DomNode → Str
  | .text s => s
  | .other => []
  | .elem tag attrs children =>
    let inner := extractList (some tag) 1 children
    if tag = str "B" ∨ tag = str "STRONG" then '*' :: inner ++ ['*']
    else if tag = str "I" ∨ tag = str "EM" then '_' :: inner ++ ['_']
    else if tag = str "CODE" then
      if pt = some (str "PRE") then inner else '`' :: inner ++ ['`']
    else if tag = str "S" ∨ tag = str "DEL" ∨ tag = str "STRIKE" then
      '~' :: inner ++ ['~']
    else if tag = str "PRE" then str "```\n" ++ inner ++ str "\n```"
    else if tag = str "BR" then ['\n']
    else if tag = str "IMG" then imgEmoji attrs
    else if tag = str "A" then
      let h := (attrs.href).getD []
      if h ≠ [] ∧ inner ≠ [] ∧ h ≠ inner then '<' :: h ++ '|' :: inner ++ ['>']
      else if inner ≠ [] then inner else h
    else if tag = str "UL" ∨ tag = str "OL" then inner
    else if tag = str "LI" then
      if pt = some (str "OL") then natStr i ++ str ". " ++ inner ++ ['\n']
      else str "• " ++ inner ++ ['\n']
    else if tag = str "P" ∨ tag = str "DIV" then
      if isBlank inner then inner else inner ++ ['\n']
    else inner

/-- `extractTextWithFormatting` mapped over a sibling list
(`Array.from(el.childNodes).map(extractTextWithFormatting).join('')`),
keeping track of each element child's 1-based index among the element
children. -/
def extractList (pt : Option Str) (i : Nat) : List DomNode → Str
  | [] => []
  | n :: rest =>
    extractNode pt i n ++ extractList pt (if n.isElem then i + 1 else i) rest
end

/-- `extractTextWithFormatting` applied to one node (the composer root
or any subtree root); its parent is outside the modelled subtree. -/
def extractTextWithFormatting (n : DomNode) : Str :=
  extractNode none 1 n

/-- Extraction of a document fragment's node list: each node's
`parentElement` is `null` (fragments are not elements). -/
def extractFrag (ns : List DomNode) : Str :=
  extractList none 1 ns

/-- JS `text.replace(/\n$/, '')`: drop a single trailing newline. -/
def stripTrailNl (s : Str) : Str :=
  match s.getLast? with
  | some c => if c = '\n' then s.dropLast else s
  | none => s

/-- `getInputText` (lines 84–93) applied to a resolved input field:
extract with formatting, then strip one trailing newline. -/
def getInputText (field : DomNode) : Str :=
  stripTrailNl (extractTextWithFormatting field)

/-! ### Markup → DOM renderer (`convertMarkdownToHtml` and helpers) -/

/-- Split `s` at the first occurrence of the character `d`:
`some (before, after)` with `s = before ++ d :: after` and `d ∉ before`. -/
def splitAtChar (d : Char) : Str → Option (Str × Str)
  | [] => none
  | c :: rest =>
    if c = d then some ([], rest)
    else (splitAtChar d rest).map (fun p => (c :: p.1, p.2))

/-- Split `s` at the first character satisfying `p`:
`some (before, c, after)` with `s = before ++ c :: after`, `p c`, and no
character of `before` satisfying `p`. -/
def splitAtPred (p : Char → Bool) : Str → Option (Str × Char × Str)
  | [] => none
  | c :: rest =>
    if p c then some ([], c, rest)
    else (splitAtPred p rest).map (fun q => (c :: q.1, q.2.1, q.2.2))

/-- A markdown pattern match (the `PatternMatch` interface, lines
250–256): start index, full length of the matched span, captured
content, tag to create, and the captured href for links. -/
structure PatternMatch where
  index : Nat
  length : Nat
  content : Str
  tag : Str
  href : Option Str := none
deriving DecidableEq

/-- The regex `d([^d]+)d` (for `d` one of `` ` ``, `*`, `_`, `~`)
anchored at the head of `s`: the greedy `[^d]+` runs to the next `d`,
which must exist and leave a nonempty content.  Returns the match
length and the content. -/
def delimAt (d : Char) (s : Str) : Option (Nat × Str) :=
  match s with
  | [] => none
  | c :: rest =>
    if c = d then
      match splitAtChar d rest with
      | some (content, _) =>
        if content = [] then none else some (content.length + 2, content)
      | none => none
    else none

/-- The regex `<([^|>]+)\|([^>]+)>` anchored at the head of `s`:
returns the match length, the href capture and the text capture. -/
def linkAt (s : Str) : Option (Nat × Str × Str) :=
  match s with
  | [] => none
  | c :: rest =>
    if c = '<' then
      match splitAtPred (fun x => x = '|' || x = '>') rest with
      | some (h, sep, rest2) =>
        if h = [] ∨ sep ≠ '|' then none
        else
          match splitAtChar '>' rest2 with
          | some (t, _) =>
            if t = [] then none else some (h.length + t.length + 3, h, t)
          | none => none
      | none => none
    else none

/-- Leftmost position at which the head-anchored matcher `f` succeeds,
as `String.match` finds the first regex match.  (None of the embedded
patterns can match the empty suffix, so stopping at the last character
is faithful.) -/
def scanFirst {α : Type} (f : Str → Option α) : Str → Option (Nat × α)
  | [] => none
  | c :: rest =>
    match f (c :: rest) with
    | some a => some (0, a)
    | none =>
      match scanFirst f rest with
      | some (i, a) => some (i + 1, a)
      | none => none

/-- The `matches` list built by `findEarliestMatch` (lines 261–295), in
source order: link, code, bold, italic, strike. -/
def candidateMatches (s : Str) : List PatternMatch :=
  (match scanFirst linkAt s with
   | some (i, len, h, t) => [⟨i, len, t, str "a", some h⟩]
   | none => []) ++
  (match scanFirst (delimAt '`') s with
   | some (i, len, c) => [⟨i, len, c, str "code", none⟩]
   | none => []) ++
  (match scanFirst (delimAt '*') s with
   | some (i, len, c) => [⟨i, len, c, str "b", none⟩]
   | none => []) ++
  (match scanFirst (delimAt '_') s with
   | some (i, len, c) => [⟨i, len, c, str "i", none⟩]
   | none => []) ++
  (match scanFirst (delimAt '~') s with
   | some (i, len, c) => [⟨i, len, c, str "s", none⟩]
   | none => [])

/-- `findEarliestMatch` (lines 261–302): `matches.reduce` keeping the
strictly earlier match, so ties go to the earlier entry in source
order. -/
def findEarliestMatch (s : Str) : Option PatternMatch :=
  match candidateMatches s with
  | [] => none
  | m :: rest => some (rest.foldl (fun e c => if c.index < e.index then c else e) m)

/-- `document.createElement` uppercases the tag name into `tagName`. -/
def upperTag (t : Str) : Str := t.map Char.toUpper

/-- `el.textContent = c` creates a single text child, or none when `c`
is empty. -/
def setTextContent (c : Str) : List DomNode :=
  if c = [] then [] else [.text c]

/-- The element built for a match (lines 322–328): `createElement(tag)`,
`textContent = content`, and `href` assigned for `a` tags with a truthy
href. -/
def nodeOfMatch (m : PatternMatch) : DomNode :=
  .elem (upperTag m.tag)
    { href :=
        match m.href with
        | some h => if m.tag = str "a" ∧ h ≠ [] then some h else none
        | none => none }
    (setTextContent m.content)

/-- Fuel-based embedding of the `parseSlackMarkdownLine` loop (lines
308–340): text before the earliest match becomes a text node, the match
becomes its element, scanning resumes after the span; with no match the
remainder becomes a single text node.  Every iteration consumes at
least one character, so `length + 1` fuel suffices. -/
def parseLineF : Nat → Str → List DomNode
  | 0, _ => []
  | f + 1, s =>
    if s = [] then []
    else
      match findEarliestMatch s with
      | some m =>
        (if 0 < m.index then [DomNode.text (s.take m.index)] else []) ++
        nodeOfMatch m :: parseLineF f (s.drop (m.index + m.length))
      | none => [DomNode.text s]

/-- `parseSlackMarkdownLine` (lines 308–340). -/
def parseSlackMarkdownLine (line : Str) : List DomNode :=
  parseLineF (line.length + 1) line

/-- JS `text.split('\n')` (never empty; `""` splits to `[""]`). -/
def splitNl : Str → List Str
  | [] => [[]]
  | c :: rest =>
    if c = '\n' then [] :: splitNl rest
    else
      match splitNl rest with
      | l :: ls => (c :: l) :: ls
      | [] => [[c]]

def brNode : DomNode := .elem (str "BR") noAttrs []

/-- The lines after the first in `processInlineText`: each is preceded
by a `<br>`, and empty lines produce nothing further. -/
def renderLines : List Str → List DomNode
  | [] => []
  | l :: ls =>
    brNode :: (if l = [] then [] else parseSlackMarkdownLine l) ++ renderLines ls

/-- `processInlineText` (lines 382–392): split into lines, a `<br>`
before every line except the first, parse each nonempty line. -/
def processInlineText (s : Str) : List DomNode :=
  match splitNl s with
  | [] => []
  | l :: ls => (if l = [] then [] else parseSlackMarkdownLine l) ++ renderLines ls

/-- The lazy tail search of the fence regex
`/```\n?([\s\S]*?)\n?```/`: returns the capture length and the length
of the closing part (4 when the optional pre-closing newline is
consumed, else 3).  The `[\s\S]*?` grows from the left; at each stop
the greedy `\n?` is tried before the bare closing fence. -/
def fenceClose : Str → Option (Nat × Nat)
  | [] => none
  | c :: rest =>
    if c = '\n' ∧ rest.take 3 = str "```" then some (0, 4)
    else if (c :: rest).take 3 = str "```" then some (0, 3)
    else (fenceClose rest).map (fun p => (p.1 + 1, p.2))

/-- The fence regex anchored at the head of `s`: an opening ```` ``` ````,
an optional newline (consumed greedily), the lazy capture, an optional
newline, and a closing ```` ``` ````.  Returns the total match length and
the capture. -/
def fenceAt (s : Str) : Option (Nat × Str) :=
  if s.take 3 = str "```" then
    let rest := s.drop 3
    let n1 : Nat := if rest.head? = some '\n' then 1 else 0
    let rest1 := rest.drop n1
    match fenceClose rest1 with
    | some (k, cl) => some (3 + n1 + k + cl, rest1.take k)
    | none => none
  else none

/-- Fuel-based embedding of the `convertMarkdownToHtml` fence loop
(lines 346–377): each fence becomes a `<pre>` whose text content is the
capture; the text before it and the final remainder go through
`processInlineText` when nonempty.  Every fence consumes at least six
characters, so `length + 1` fuel suffices. -/
def convertMarkdownToHtmlF : Nat → Str → List DomNode
  | 0, _ => []
  | f + 1, s =>
    match scanFirst fenceAt s with
    | some (i, len, cap) =>
      (if 0 < i then processInlineText (s.take i) else []) ++
      DomNode.elem (str "PRE") noAttrs (setTextContent cap) ::
        convertMarkdownToHtmlF f (s.drop (i + len))
    | none => if s = [] then [] else processInlineText s

/-- `convertMarkdownToHtml` (lines 346–377): the rendered fragment's
node list. -/
def convertMarkdownToHtml (text : Str) : List DomNode :=
  convertMarkdownToHtmlF (text.length + 1) text

/-! ### Host event bridge (`setInputText`, `dispatchInputEvents`) -/

/-- An event dispatched on the composer: type name, whether it is an
`InputEvent` with `inputType: 'insertText'`, and the `bubbles` /
`cancelable` flags. -/
structure EventRec where
  type : Str
  insertText : Bool
  bubbles : Bool
  cancelable : Bool
deriving DecidableEq

/-- `dispatchInputEvents` (lines 425–451): the events dispatched on the
element, in dispatch order as written in the source — `input` first,
then `beforeinput`, then `change`, all bubbling and cancelable. -/
def dispatchInputEvents : List EventRec :=
  [⟨str "input", true, true, true⟩,
   ⟨str "beforeinput", true, true, true⟩,
   ⟨str "change", false, true, true⟩]

/-- The write-back steps inside `setInputText`'s try block (lines
401–415), in execution order.  Any of them may raise in the host page;
the catch block then returns `false`. -/
inductive Step where
  | focus
  | clear
  | render
  | append
  | dispatch
deriving DecidableEq

/-- The host environment a `setInputText` call runs against: the
optionally passed element, the element `findActiveInputField` would
resolve (both as opaque ids), and which steps raise. -/
structure BridgeEnv where
  passedField : Option Nat
  locatedField : Option Nat
  raises : Step → Bool

/-- `const field = inputField || findActiveInputField()` (line 398). -/
def resolvedField (env : BridgeEnv) : Option Nat :=
  match env.passedField with
  | some f => some f
  | none => env.locatedField

/-- Observable actions `setInputText` performs on the host DOM. -/
inductive BridgeAction where
  | focus (f : Nat)
  | clear (f : Nat)
  | append (f : Nat) (ns : List DomNode)
  | dispatch (f : Nat) (e : EventRec)

/-- `setInputText` (lines 397–420): resolve the field (returning
`false` when none), then focus, clear `innerHTML`, convert the markup,
append the fragment and dispatch the events; any raising step aborts to
the catch block which returns `false`.  Returns the boolean result and
the trace of completed actions. -/
def setInputText (env : BridgeEnv) (text : Str) : Bool × List BridgeAction :=
  match resolvedField env with
  | none => (false, [])
  | some f =>
    if env.raises .focus then (false, []) else
    let a1 : List BridgeAction := [.focus f]
    if env.raises .clear then (false, a1) else
    let a2 := a1 ++ [BridgeAction.clear f]
    if env.raises .render then (false, a2) else
    if env.raises .append then (false, a2) else
    let a3 := a2 ++ [BridgeAction.append f (convertMarkdownToHtml text)]
    if env.raises .dispatch then (false, a3) else
    (true, a3 ++ dispatchInputEvents.map (BridgeAction.dispatch f))

/-- The types of the events dispatched in an action trace, in order. -/
def dispatchedTypes (acts : List BridgeAction) : List Str :=
  acts.filterMap fun a =>
    match a with
    | .dispatch _ e => some e.type
    | _ => none

/-! ### Content script (`handleKeyDown`, `index.ts` lines 80–110) -/

/-- A keyboard event as the handlers read it. -/
structure KeyEvent where
  key : Str
  metaKey : Bool
  ctrlKey : Bool
  shiftKey : Bool
  isComposing : Bool
deriving DecidableEq

/-- Observable actions of the content script's `handleKeyDown`:
locating the composer, reading its text, suppressing the host's default
handling, and opening the modal session (`startProofreadFlow`). -/
inductive ContentAction where
  | findComposer
  | readText (t : Str)
  | preventDefault
  | stopPropagation
  | openModal (t : Str)
deriving DecidableEq

/-- The content script's module state: whether a modal instance exists
(`currentModal`) and the held input field (`currentInputField`). -/
structure ContentState where
  currentModal : Bool
  currentInputField : Option Nat
deriving DecidableEq

/-- The page as `handleKeyDown` sees it: what `findActiveInputField`
resolves to — an element id plus its DOM subtree — if anything. -/
structure PageEnv where
  activeField : Option (Nat × DomNode)

/-- `handleKeyDown` (lines 80–110): ignore while composing; on
Cmd/Ctrl+Enter without shift, return if a modal is open, locate the
composer (return if none), read its text (return if blank), then
prevent default, stop propagation, hold the field and start the
proofread flow (which creates the modal). -/
def handleKeyDown (st : ContentState) (env : PageEnv) (e : KeyEvent) :
    ContentState × List ContentAction :=
  if e.isComposing then (st, [])
  else if (e.metaKey || e.ctrlKey) && decide (e.key = str "Enter") && !e.shiftKey then
    if st.currentModal then (st, [])
    else
      match env.activeField with
      | none => (st, [.findComposer])
      | some (fid, dom) =>
        let text := getInputText dom
        if isBlank text then (st, [.findComposer, .readText text])
        else
          ({ currentModal := true, currentInputField := some fid },
           [.findComposer, .readText text, .preventDefault, .stopPropagation,
            .openModal text])
  else (st, [])

/-! ### Overlay modal: keyboard shortcuts (`modal.ts` lines 181–245) -/

/-- The modal's finite states (`ModalState`). -/
inductive MState where
  | loading
  | preview
  | ready
  | error
  | sending
deriving DecidableEq

/-- A callback invocation out of the modal. -/
inductive CallbackCall where
  | onCancel
  | onSendOriginal
  | onSend (text : Str)
  | onProofread
deriving DecidableEq

/-- The modal fields `handleKeyboardShortcut` reads and writes:
state, stored texts, credential flag, and the live values of the two
textareas when they exist. -/
structure ModalCtx where
  state : MState
  originalText : Str
  proofreadText : Str
  hasApiKey : Bool
  beforeTextarea : Option Str
  afterTextarea : Option Str
deriving DecidableEq

/-- The outcome of one `handleKeyboardShortcut` call: the callback
fired (at most one), whether `preventDefault` and
`stopImmediatePropagation` ran, and the updated stored texts. -/
structure ShortcutOutcome where
  callback : Option CallbackCall
  prevented : Bool
  stopped : Bool
  originalText : Str
  proofreadText : Str
deriving DecidableEq

/-- `handleKeyboardShortcut` (lines 181–245): Escape cancels from any
state; plain Enter sends in `preview` (live before-text) and `ready`
(live after-text); Cmd/Ctrl+Enter without shift always prevents the
default and then, in `preview`, proofreads when an API key is set and
otherwise sends as-is, and in `ready` sends the live after-text. -/
def handleKeyboardShortcut (m : ModalCtx) (e : KeyEvent) : ShortcutOutcome :=
  if e.key = str "Escape" then
    ⟨some .onCancel, true, true, m.originalText, m.proofreadText⟩
  else
    let isModifierPressed := e.metaKey || e.ctrlKey
    let isEnter := decide (e.key = str "Enter")
    if isEnter && !isModifierPressed && !e.shiftKey then
      if m.state = .preview then
        let o := (m.beforeTextarea).getD m.originalText
        ⟨some .onSendOriginal, true, true, o, m.proofreadText⟩
      else if m.state = .ready then
        let p := (m.afterTextarea).getD m.proofreadText
        ⟨some (.onSend p), true, true, m.originalText, p⟩
      else ⟨none, false, false, m.originalText, m.proofreadText⟩
    else if isModifierPressed && isEnter && !e.shiftKey then
      if m.state = .preview then
        let o := (m.beforeTextarea).getD m.originalText
        ⟨some (if m.hasApiKey then .onProofread else .onSendOriginal), true, true,
          o, m.proofreadText⟩
      else if m.state = .ready then
        let p := (m.afterTextarea).getD m.proofreadText
        ⟨some (.onSend p), true, true, m.originalText, p⟩
      else ⟨none, true, true, m.originalText, m.proofreadText⟩
    else ⟨none, false, false, m.originalText, m.proofreadText⟩

/-! ### Overlay modal: session side effects (`modal.ts` lines 84–130,
297–313) -/

/-- The host page's mutable per-element state: the `contenteditable`
attribute value and the `inert` attribute, indexed by element id. -/
structure HostDom where
  editable : Nat → Str
  inert : Nat → Bool

/-- The static classification of the page's elements (which selectors
they match), in document order. -/
structure PageInfo where
  order : List Nat
  isMessageInput : Nat → Bool
  isInputContainer : Nat → Bool
  hasModalAttr : Nat → Bool
  inShadow : Nat → Bool

/-- The modal's references and installed-handler flags, as the fields
of `SlackPatchModal` hold them. -/
structure ModalRefs where
  interceptorInstalled : Bool
  focusGuardInstalled : Bool
  containerAttached : Bool
  disabledInputField : Option Nat
  inertElements : List Nat
  beforeTextarea : Option Nat
  afterTextarea : Option Nat
deriving DecidableEq

/-- Mark one element inert and record it, skipping elements already
inert (the `!container.hasAttribute('inert')` guard). -/
def markInert (acc : HostDom × ModalRefs) (i : Nat) : HostDom × ModalRefs :=
  if acc.1.inert i then acc
  else
    ({ acc.1 with inert := fun j => if j = i then true else acc.1.inert j },
     { acc.2 with inertElements := acc.2.inertElements ++ [i] })

/-- `disableSlackInputs` (lines 84–113): disable the first
`[data-message-input="true"]` element when it is content-editable and
record it; mark the input containers inert; mark the remaining
content-editable elements outside the modal's shadow root inert. -/
def disableSlackInputs (info : PageInfo) (d : HostDom) (m : ModalRefs) :
    HostDom × ModalRefs :=
  let s1 :=
    match info.order.find? (fun i => info.isMessageInput i) with
    | some f =>
      if d.editable f = str "true" then
        ({ d with editable := fun j => if j = f then str "false" else d.editable j },
         { m with disabledInputField := some f })
      else (d, m)
    | none => (d, m)
  let s2 := (info.order.filter (fun i => info.isInputContainer i)).foldl markInert s1
  (info.order.filter
      (fun i => decide (s2.1.editable i = str "true") && !info.hasModalAttr i)).foldl
    (fun acc i => if !acc.1.inert i && !info.inShadow i then markInert acc i else acc)
    s2

/-- `restoreSlackInputs` (lines 118–130): restore the recorded field's
`contentEditable` to `'true'`, remove `inert` from every recorded
element, and clear both records. -/
def restoreSlackInputs (d : HostDom) (m : ModalRefs) : HostDom × ModalRefs :=
  let d1 :=
    match m.disabledInputField with
    | some f => { d with editable := fun j => if j = f then str "true" else d.editable j }
    | none => d
  let d2 := { d1 with inert := fun j => if j ∈ m.inertElements then false else d1.inert j }
  (d2, { m with disabledInputField := none, inertElements := [] })

/-- `hide` (lines 297–313): remove the event interceptor and the
focus-out guard, detach the overlay container, restore the host inputs,
and clear the textarea references. -/
def hide (d : HostDom) (m : ModalRefs) : HostDom × ModalRefs :=
  let m1 : ModalRefs :=
    { m with
      interceptorInstalled := false
      focusGuardInstalled := false
      containerAttached := false }
  let s := restoreSlackInputs d m1
  (s.1, { s.2 with beforeTextarea := none, afterTextarea := none })

/-! ### The supported tag set and the round-trip side conditions -/

/-- The tag set the converter supports (claim C1's supported subset). -/
def supportedTags : List Str :=
  [str "B", str "STRONG", str "I", str "EM", str "CODE", str "S", str "DEL",
   str "STRIKE", str "PRE", str "BR", str "IMG", str "A", str "UL", str "OL",
   str "LI", str "P", str "DIV"]

mutual
/-- The node is built only from text nodes and supported elements. -/
def supportedNode : DomNode → Bool
  | .text _ => true
  | .other => false
  | .elem tag _ children => decide (tag ∈ supportedTags) && supportedList children

/-- All nodes of the list are supported. -/
def supportedList : List DomNode → Bool
  | [] => true
  | n :: rest => supportedNode n && supportedList rest
end

/-- The inline-scan side condition on one line, following the
`parseSlackMarkdownLine` recursion: no selected link span may have its
href equal to its text (the extractor collapses such an anchor to the
bare text).  Fuel as in `parseLineF`. -/
def goodLineF : Nat → Str → Bool
  | 0, _ => true
  | f + 1, s =>
    if s = [] then true
    else
      match findEarliestMatch s with
      | some m =>
        if m.tag = str "a" ∧ m.href = some m.content then false
        else goodLineF f (s.drop (m.index + m.length))
      | none => true

def goodLine (s : Str) : Bool := goodLineF (s.length + 1) s

/-- Every line of the chunk satisfies the inline-scan side condition. -/
def goodInline (s : Str) : Bool := (splitNl s).all goodLine

/-- The renderer-scan side condition on a whole markup string,
following the `convertMarkdownToHtml` fence recursion: every fence
match must be in the canonical shape with both optional newlines
present (match length = capture length + 8), and every inline chunk
must satisfy `goodInline`.  Fuel as in `convertMarkdownToHtmlF`. -/
def goodStringF : Nat → Str → Bool
  | 0, _ => true
  | f + 1, s =>
    match scanFirst fenceAt s with
    | some (i, len, cap) =>
      decide (len = cap.length + 8) && goodInline (s.take i) &&
        goodStringF f (s.drop (i + len))
    | none => goodInline s

def goodString (s : Str) : Bool := goodStringF (s.length + 1) s

/-- Join lines with newlines (inverse of `splitNl`). -/
def joinNl : List Str → Str
  | [] => []
  | [l] => l
  | l :: ls => l ++ '\n' :: joinNl ls

/-- Join each line with a preceding newline. -/
def joinNlTail : List Str → Str
  | [] => []
  | l :: ls => '\n' :: (l ++ joinNlTail ls)

/-! ## Theorems -/

/-- C9: `<div><b>Hi</b> <i>there</i></div>` extracts to
`"*Hi* _there_\n"`, and `<ol><li>a</li><li>b</li></ol>` extracts to
`"1. a\n2. b\n"` (items numbered by 1-based position among element
siblings, each followed by a newline). -/
theorem c9_extract_examples :
    extractTextWithFormatting
        (.elem (str "DIV") noAttrs
          [.elem (str "B") noAttrs [.text (str "Hi")],
           .text (str " "),
           .elem (str "I") noAttrs [.text (str "there")]])
      = str "*Hi* _there_\n" ∧
    extractTextWithFormatting
        (.elem (str "OL") noAttrs
          [.elem (str "LI") noAttrs [.text (str "a")],
           .elem (str "LI") noAttrs [.text (str "b")]])
      = str "1. a\n2. b\n" := by
  exact ⟨by decide, by decide⟩

/-- C8: `setInputText` is total (never throws) and returns `true`
exactly when a field is resolvable and no write-back step raises —
equivalently, it returns `false` exactly when no element resolves or
some step raises. -/
theorem c8_setInputText_result (env : BridgeEnv) (t : Str) :
    (setInputText env t).1 = true ↔
      (resolvedField env).isSome = true ∧ ∀ s, env.raises s = false := by
  have hall : (∀ s, env.raises s = false) ↔
      (env.raises .focus = false ∧ env.raises .clear = false ∧
       env.raises .render = false ∧ env.raises .append = false ∧
       env.raises .dispatch = false) := by
    constructor
    · intro h
      exact ⟨h _, h _, h _, h _, h _⟩
    · rintro ⟨h1, h2, h3, h4, h5⟩ s
      cases s <;> assumption
  rw [hall]
  unfold setInputText
  cases hr : resolvedField env with
  | none => simp
  | some f => split_ifs <;> simp_all

/-- C2 fails on the code: on a successful `setText`, the first event
dispatched is `input`, not `beforeinput` (`dispatchInputEvents`
dispatches `input`, then `beforeinput`, then `change`). -/
theorem c2_counterexample :
    dispatchedTypes (setInputText ⟨some 0, none, fun _ => false⟩ (str "hi")).2 ≠
      [str "beforeinput", str "input", str "change"] := by decide

/-- C2 (amended): on every successful `setText` call, after the
rendered fragment is appended the function dispatches exactly three
bubbling, cancelable events on the element, in the fixed order `input`
(insertText), then `beforeinput` (insertText), then `change`. -/
theorem c2_event_order (env : BridgeEnv) (t : Str) (f : Nat)
    (hf : resolvedField env = some f) (hr : ∀ s, env.raises s = false) :
    (setInputText env t).2 =
      [.focus f, .clear f, .append f (convertMarkdownToHtml t),
       .dispatch f ⟨str "input", true, true, true⟩,
       .dispatch f ⟨str "beforeinput", true, true, true⟩,
       .dispatch f ⟨str "change", false, true, true⟩] := by
  unfold setInputText
  rw [hf]
  simp [hr, dispatchInputEvents]

/-- Witness for `c2_event_order` at a concrete environment. -/
theorem c2_event_order_witness :
    (setInputText ⟨some 0, none, fun _ => false⟩ (str "hi")).2 =
      [.focus 0, .clear 0, .append 0 (convertMarkdownToHtml (str "hi")),
       .dispatch 0 ⟨str "input", true, true, true⟩,
       .dispatch 0 ⟨str "beforeinput", true, true, true⟩,
       .dispatch 0 ⟨str "change", false, true, true⟩] :=
  c2_event_order ⟨some 0, none, fun _ => false⟩ (str "hi") 0 rfl (fun _ => rfl)

/-- C5: a shortcut keydown that arrives while a modal instance is
already active is a no-op — the handler returns immediately with the
state unchanged and performs no action (no composer lookup, no second
modal, no default suppression). -/
theorem c5_second_open_noop (st : ContentState) (env : PageEnv) (e : KeyEvent)
    (hmod : st.currentModal = true)
    (hmeta : e.metaKey = true ∨ e.ctrlKey = true)
    (hkey : e.key = str "Enter") (hshift : e.shiftKey = false) :
    handleKeyDown st env e = (st, []) := by
  unfold handleKeyDown
  cases hic : e.isComposing
  · rcases hmeta with h | h <;> simp [hic, h, hkey, hshift, hmod]
  · simp [hic]

/-- Witness for `c5_second_open_noop`. -/
theorem c5_second_open_noop_witness :
    handleKeyDown ⟨true, none⟩ ⟨none⟩ ⟨str "Enter", true, false, false, false⟩ =
      (⟨true, none⟩, []) :=
  c5_second_open_noop ⟨true, none⟩ ⟨none⟩ ⟨str "Enter", true, false, false, false⟩
    rfl (Or.inl rfl) rfl rfl

/-- C10: on Cmd/Ctrl+Enter with a composer found but a blank extracted
text, `handleKeyDown` returns after reading the text: it neither
prevents the default nor stops propagation, opens no modal, and leaves
the state (including the held input-field reference) unchanged. -/
theorem c10_blank_text_passthrough (st : ContentState) (env : PageEnv)
    (e : KeyEvent) (fid : Nat) (dom : DomNode)
    (hmod : st.currentModal = false) (hic : e.isComposing = false)
    (hmeta : e.metaKey = true ∨ e.ctrlKey = true)
    (hkey : e.key = str "Enter") (hshift : e.shiftKey = false)
    (hfield : env.activeField = some (fid, dom))
    (hblank : isBlank (getInputText dom) = true) :
    handleKeyDown st env e =
      (st, [.findComposer, .readText (getInputText dom)]) := by
  unfold handleKeyDown
  rcases hmeta with h | h <;> simp [hic, h, hkey, hshift, hmod, hfield, hblank]

/-- Witness for `c10_blank_text_passthrough` on an empty composer. -/
theorem c10_blank_text_passthrough_witness :
    handleKeyDown ⟨false, none⟩ ⟨some (0, .text (str " "))⟩
        ⟨str "Enter", false, true, false, false⟩ =
      (⟨false, none⟩, [.findComposer, .readText (getInputText (.text (str " ")))]) :=
  c10_blank_text_passthrough ⟨false, none⟩ ⟨some (0, .text (str " "))⟩
    ⟨str "Enter", false, true, false, false⟩ 0 (.text (str " "))
    rfl rfl (Or.inr rfl) rfl rfl rfl (by decide)

/-- C3: the modal's shortcut semantics.  Escape cancels from any
state.  Plain Enter: in `preview` it fires `onSendOriginal` after
storing the live before-textarea value; in `ready` it fires `onSend`
with the live after-textarea value.  Cmd/Ctrl+Enter without shift: in
`preview` it stores the live before-text and fires `onProofread` when
an API key is configured, else `onSendOriginal`; in `ready` it behaves
as plain Enter. -/
theorem c3_shortcut_semantics (m : ModalCtx) (e : KeyEvent) :
    (e.key = str "Escape" →
      (handleKeyboardShortcut m e).callback = some .onCancel) ∧
    (e.key = str "Enter" → e.metaKey = false → e.ctrlKey = false →
      e.shiftKey = false →
      (m.state = .preview → ∀ v, m.beforeTextarea = some v →
        (handleKeyboardShortcut m e).callback = some .onSendOriginal ∧
        (handleKeyboardShortcut m e).originalText = v) ∧
      (m.state = .ready → ∀ v, m.afterTextarea = some v →
        (handleKeyboardShortcut m e).callback = some (.onSend v) ∧
        (handleKeyboardShortcut m e).proofreadText = v)) ∧
    (e.key = str "Enter" → (e.metaKey = true ∨ e.ctrlKey = true) →
      e.shiftKey = false →
      (m.state = .preview → ∀ v, m.beforeTextarea = some v →
        (m.hasApiKey = true →
          (handleKeyboardShortcut m e).callback = some .onProofread) ∧
        (m.hasApiKey = false →
          (handleKeyboardShortcut m e).callback = some .onSendOriginal) ∧
        (handleKeyboardShortcut m e).originalText = v) ∧
      (m.state = .ready → ∀ v, m.afterTextarea = some v →
        (handleKeyboardShortcut m e).callback = some (.onSend v) ∧
        (handleKeyboardShortcut m e).proofreadText = v)) := by
  have hne : ¬(str "Enter" = str "Escape") := by decide
  refine ⟨?_, ?_, ?_⟩
  · intro hk
    simp [handleKeyboardShortcut, hk]
  · intro hk hm hc hs
    constructor
    · intro hst v hv
      simp [handleKeyboardShortcut, hk, hm, hc, hs, hne, hst, hv]
    · intro hst v hv
      simp [handleKeyboardShortcut, hk, hm, hc, hs, hne, hst, hv]
  · intro hk hmeta hs
    constructor
    · intro hst v hv
      rcases hmeta with h | h <;>
        simp [handleKeyboardShortcut, hk, h, hs, hne, hst, hv]
    · intro hst v hv
      rcases hmeta with h | h <;>
        simp [handleKeyboardShortcut, hk, h, hs, hne, hst, hv]

/-- Witness for `c3_shortcut_semantics`: Escape cancels, plain Enter in
`preview` sends the live before-text, and Cmd+Enter in `preview` with
an API key starts proofreading. -/
theorem c3_shortcut_semantics_witness :
    (handleKeyboardShortcut
        ⟨.preview, str "o", str "p", true, some (str "live"), none⟩
        ⟨str "Escape", false, false, false, false⟩).callback = some .onCancel ∧
    (handleKeyboardShortcut
        ⟨.preview, str "o", str "p", true, some (str "live"), none⟩
        ⟨str "Enter", false, false, false, false⟩).originalText = str "live" ∧
    (handleKeyboardShortcut
        ⟨.preview, str "o", str "p", true, some (str "live"), none⟩
        ⟨str "Enter", true, false, false, false⟩).callback = some .onProofread := by
  refine ⟨?_, ?_, ?_⟩
  · exact (c3_shortcut_semantics _ _).1 rfl
  · exact (((c3_shortcut_semantics _ _).2.1 rfl rfl rfl rfl).1 rfl (str "live") rfl).2
  · exact (((c3_shortcut_semantics _ _).2.2 rfl (Or.inl rfl) rfl).1 rfl
      (str "live") rfl).1 rfl

/-- `markInert` never changes the recorded disabled input field. -/
theorem markInert_disabled (acc : HostDom × ModalRefs) (i : Nat) :
    (markInert acc i).2.disabledInputField = acc.2.disabledInputField := by
  unfold markInert
  split <;> rfl

/-- Folding `markInert` never changes the recorded disabled field. -/
theorem foldl_markInert_disabled (l : List Nat) (acc : HostDom × ModalRefs) :
    (l.foldl markInert acc).2.disabledInputField = acc.2.disabledInputField := by
  induction l generalizing acc with
  | nil => rfl
  | cons x xs ih => rw [List.foldl_cons, ih, markInert_disabled]

/-- The guarded `markInert` fold of `disableSlackInputs` never changes
the recorded disabled field either. -/
theorem foldl_guardMark_disabled (info : PageInfo) (l : List Nat)
    (acc : HostDom × ModalRefs) :
    ((l.foldl
        (fun acc i => if !acc.1.inert i && !info.inShadow i then markInert acc i else acc)
        acc)).2.disabledInputField = acc.2.disabledInputField := by
  induction l generalizing acc with
  | nil => rfl
  | cons x xs ih =>
    rw [List.foldl_cons, ih]
    split <;> simp [markInert_disabled]

/-- C4: on every teardown, from any modal state: the keyboard
interceptor and focus-out guard are removed, the overlay container is
detached, every recorded inert-marked element has `inert` removed, the
recorded disabled composer is restored to `contentEditable = 'true'`,
and all references are cleared.  Moreover `disableSlackInputs` records
a composer only when its pre-session `contenteditable` was `'true'`, so
the restored value matches the pre-session value. -/
theorem c4_teardown_restores (d : HostDom) (m : ModalRefs) :
    (hide d m).2.interceptorInstalled = false ∧
    (hide d m).2.focusGuardInstalled = false ∧
    (hide d m).2.containerAttached = false ∧
    (∀ i ∈ m.inertElements, (hide d m).1.inert i = false) ∧
    (∀ f, m.disabledInputField = some f → (hide d m).1.editable f = str "true") ∧
    (hide d m).2.disabledInputField = none ∧
    (hide d m).2.inertElements = [] ∧
    (hide d m).2.beforeTextarea = none ∧
    (hide d m).2.afterTextarea = none ∧
    (∀ (info : PageInfo) (d0 : HostDom) (m0 : ModalRefs) (f : Nat),
      m0.disabledInputField = none →
      (disableSlackInputs info d0 m0).2.disabledInputField = some f →
      d0.editable f = str "true") := by
  refine ⟨rfl, rfl, rfl, ?_, ?_, rfl, rfl, rfl, rfl, ?_⟩
  · intro i hi
    simp [hide, restoreSlackInputs, hi]
  · intro f hf
    simp [hide, restoreSlackInputs, hf]
  · intro info d0 m0 f h0 hrec
    unfold disableSlackInputs at hrec
    rw [foldl_guardMark_disabled, foldl_markInert_disabled] at hrec
    revert hrec
    cases hfind : info.order.find? (fun i => info.isMessageInput i) with
    | none =>
      intro hrec
      simp at hrec
      rw [h0] at hrec
      exact absurd hrec (by simp)
    | some g =>
      intro hrec
      by_cases hg : d0.editable g = str "true"
      · simp [hg] at hrec
        rwa [← hrec]
      · simp [hg] at hrec
        rw [h0] at hrec
        exact absurd hrec (by simp)

/-! ### Specification lemmas for the inline matchers -/

theorem splitAtChar_eq (d : Char) :
    ∀ (s a b : Str), splitAtChar d s = some (a, b) → s = a ++ d :: b := by
  intro s
  induction s with
  | nil => intro a b h; simp [splitAtChar] at h
  | cons c rest ih =>
    intro a b h
    simp only [splitAtChar] at h
    by_cases hc : c = d
    · rw [if_pos hc] at h
      obtain ⟨rfl, rfl⟩ := by simpa using h
      simp [hc]
    · rw [if_neg hc] at h
      cases hs : splitAtChar d rest with
      | none => rw [hs] at h; simp at h
      | some p =>
        rw [hs] at h
        obtain ⟨a', b'⟩ := p
        simp only [Option.map_some', Option.some.injEq, Prod.mk.injEq] at h
        obtain ⟨rfl, rfl⟩ := h
        simp [ih _ _ hs]

theorem splitAtPred_eq (p : Char → Bool) :
    ∀ (s a : Str) (c : Char) (b : Str),
      splitAtPred p s = some (a, c, b) → s = a ++ c :: b := by
  intro s
  induction s with
  | nil => intro a c b h; simp [splitAtPred] at h
  | cons x rest ih =>
    intro a c b h
    simp only [splitAtPred] at h
    by_cases hx : p x = true
    · rw [if_pos hx] at h
      obtain ⟨rfl, rfl, rfl⟩ := by simpa using h
      simp
    · rw [if_neg hx] at h
      cases hs : splitAtPred p rest with
      | none => rw [hs] at h; simp at h
      | some q =>
        rw [hs] at h
        obtain ⟨a', c', b'⟩ := q
        simp only [Option.map_some', Option.some.injEq, Prod.mk.injEq] at h
        obtain ⟨rfl, rfl, rfl⟩ := h
        simp [ih _ _ _ hs]

theorem delimAt_some (d : Char) (s : Str) (len : Nat) (c : Str)
    (h : delimAt d s = some (len, c)) :
    len = c.length + 2 ∧ c ≠ [] ∧ len ≤ s.length ∧
      s.take len = d :: c ++ [d] := by
  cases s with
  | nil => simp [delimAt] at h
  | cons x rest =>
    simp only [delimAt] at h
    by_cases hx : x = d
    · rw [if_pos hx] at h
      cases hs : splitAtChar d rest with
      | none => rw [hs] at h; simp at h
      | some q =>
        obtain ⟨a, b⟩ := q
        rw [hs] at h
        dsimp only at h
        by_cases ha : a = []
        · rw [if_pos ha] at h; simp at h
        · rw [if_neg ha] at h
          have hp : (a.length + 2, a) = (len, c) := Option.some.inj h
          have e1 : a.length + 2 = len := congrArg Prod.fst hp
          have e2 : a = c := congrArg Prod.snd hp
          have hre : rest = a ++ d :: b := splitAtChar_eq d rest a b hs
          have htake : (x :: rest).take (a.length + 2) = d :: a ++ [d] := by
            rw [hx, hre]
            show (d :: (a ++ d :: b)).take ((a.length + 1) + 1) = d :: a ++ [d]
            have hta : (a ++ d :: b).take (a.length + 1) = a ++ [d] := by
              have := @List.take_append Char a (d :: b) 1
              simpa using this
            rw [List.take_succ_cons, hta]
            exact rfl
          refine ⟨?_, ?_, ?_, ?_⟩
          · rw [← e1, ← e2]
          · rw [← e2]; exact ha
          · rw [← e1, hre]
            simp [List.length_append]
          · rw [← e1, ← e2]; exact htake
    · rw [if_neg hx] at h; simp at h

theorem linkAt_some (s : Str) (len : Nat) (h t : Str)
    (hm : linkAt s = some (len, h, t)) :
    len = h.length + t.length + 3 ∧ h ≠ [] ∧ t ≠ [] ∧ len ≤ s.length ∧
      s.take len = '<' :: h ++ '|' :: t ++ ['>'] := by
  cases s with
  | nil => simp [linkAt] at hm
  | cons x rest =>
    simp only [linkAt] at hm
    by_cases hx : x = '<'
    · rw [if_pos hx] at hm
      cases hs : splitAtPred (fun x => x = '|' || x = '>') rest with
      | none => rw [hs] at hm; simp at hm
      | some q =>
        obtain ⟨h', sep, rest2⟩ := q
        rw [hs] at hm
        dsimp only at hm
        by_cases hg : h' = [] ∨ sep ≠ '|'
        · rw [if_pos hg] at hm; simp at hm
        · rw [if_neg hg] at hm
          push_neg at hg
          obtain ⟨hh, hsep⟩ := hg
          cases hs2 : splitAtChar '>' rest2 with
          | none => rw [hs2] at hm; simp at hm
          | some q2 =>
            obtain ⟨t', rest3⟩ := q2
            rw [hs2] at hm
            dsimp only at hm
            by_cases ht : t' = []
            · rw [if_pos ht] at hm; simp at hm
            · rw [if_neg ht] at hm
              have hp : (h'.length + t'.length + 3, h', t') = (len, h, t) :=
                Option.some.inj hm
              have e1 : h'.length + t'.length + 3 = len := congrArg Prod.fst hp
              have e2 : h' = h := congrArg (fun p => p.2.1) hp
              have e3 : t' = t := congrArg (fun p => p.2.2) hp
              rw [hsep] at hs
              have hre : rest = h' ++ '|' :: rest2 :=
                splitAtPred_eq _ rest h' '|' rest2 hs
              have hre2 : rest2 = t' ++ '>' :: rest3 :=
                splitAtChar_eq '>' rest2 t' rest3 hs2
              have htake : (x :: rest).take (h'.length + t'.length + 3) =
                  '<' :: h' ++ '|' :: t' ++ ['>'] := by
                rw [hx, hre, hre2]
                have h3 : (t' ++ '>' :: rest3).take (t'.length + 1) = t' ++ ['>'] := by
                  have := @List.take_append Char t' ('>' :: rest3) 1
                  simpa using this
                have h2 : (h' ++ '|' :: (t' ++ '>' :: rest3)).take
                    (h'.length + (t'.length + 2)) = h' ++ '|' :: t' ++ ['>'] := by
                  have h4 := @List.take_append Char h'
                    ('|' :: (t' ++ '>' :: rest3)) (t'.length + 2)
                  rw [h4, List.take_succ_cons, h3]
                  simp
                have harith : h'.length + t'.length + 3 =
                    (h'.length + (t'.length + 2)) + 1 := by omega
                rw [harith, List.take_succ_cons, h2]
                exact rfl
              refine ⟨?_, ?_, ?_, ?_, ?_⟩
              · rw [← e1, ← e2, ← e3]
              · rw [← e2]; exact hh
              · rw [← e3]; exact ht
              · rw [← e1, hre, hre2]
                simp [List.length_append]
                omega
              · rw [← e1, ← e2, ← e3]; exact htake
    · rw [if_neg hx] at hm; simp at hm

theorem fenceClose_some :
    ∀ (s : Str) (k cl : Nat), fenceClose s = some (k, cl) →
      (cl = 3 ∨ cl = 4) ∧ k + cl ≤ s.length ∧
        s.take (k + cl) = s.take k ++ (if cl = 4 then str "\n```" else str "```") := by
  intro s
  induction s with
  | nil => intro k cl h; simp [fenceClose] at h
  | cons c rest ih =>
    intro k cl h
    simp only [fenceClose] at h
    by_cases h1 : c = '\n' ∧ rest.take 3 = str "```"
    · rw [if_pos h1] at h
      have hp : ((0 : Nat), (4 : Nat)) = (k, cl) := Option.some.inj h
      have e1 : k = 0 := (congrArg Prod.fst hp).symm
      have e2 : cl = 4 := (congrArg Prod.snd hp).symm
      subst e1; subst e2
      obtain ⟨hc, ht⟩ := h1
      have hlen : 3 ≤ rest.length := by
        have h5 := congrArg List.length ht
        rw [List.length_take] at h5
        simp [str] at h5
        omega
      refine ⟨Or.inr rfl, by simp only [List.length_cons]; omega, ?_⟩
      show (c :: rest).take (0 + 4) = (c :: rest).take 0 ++ str "\n```"
      rw [show (0 + 4 : Nat) = 3 + 1 from rfl, List.take_succ_cons, ht, hc]
      exact rfl
    · rw [if_neg h1] at h
      by_cases h2 : (c :: rest).take 3 = str "```"
      · rw [if_pos h2] at h
        have hp : ((0 : Nat), (3 : Nat)) = (k, cl) := Option.some.inj h
        have e1 : k = 0 := (congrArg Prod.fst hp).symm
        have e2 : cl = 3 := (congrArg Prod.snd hp).symm
        subst e1; subst e2
        have hlen : 2 ≤ rest.length := by
          have h5 := congrArg List.length h2
          rw [List.length_take, List.length_cons] at h5
          simp [str] at h5
          omega
        refine ⟨Or.inl rfl, by simp only [List.length_cons]; omega, ?_⟩
        show (c :: rest).take (0 + 3) = (c :: rest).take 0 ++ str "```"
        rw [show (0 + 3 : Nat) = 3 from rfl, h2]
        exact rfl
      · rw [if_neg h2] at h
        cases hfc : fenceClose rest with
        | none => rw [hfc] at h; simp at h
        | some q =>
          obtain ⟨k', cl'⟩ := q
          rw [hfc] at h
          simp only [Option.map_some'] at h
          have hp : (k' + 1, cl') = (k, cl) := Option.some.inj h
          have e1 : k = k' + 1 := (congrArg Prod.fst hp).symm
          have e2 : cl = cl' := (congrArg Prod.snd hp).symm
          subst e1; subst e2
          obtain ⟨hcl, hle, htk⟩ := ih k' cl hfc
          refine ⟨hcl, by simp only [List.length_cons]; omega, ?_⟩
          rw [show k' + 1 + cl = (k' + cl) + 1 by omega, List.take_succ_cons,
            List.take_succ_cons, htk]
          exact rfl

/-- Full decomposition of a fence match: the span is the opening
fence, an optional consumed newline, the capture, an optional consumed
newline, and the closing fence. -/
theorem fenceAt_some (s : Str) (len : Nat) (cap : Str)
    (h : fenceAt s = some (len, cap)) :
    6 ≤ len ∧ len ≤ s.length ∧
      ∃ a b : Str, (a = [] ∨ a = ['\n']) ∧ (b = [] ∨ b = ['\n']) ∧
        len = a.length + cap.length + b.length + 6 ∧
        s.take len = str "```" ++ a ++ cap ++ b ++ str "```" := by
  unfold fenceAt at h
  by_cases h3 : s.take 3 = str "```"
  · rw [if_pos h3] at h
    dsimp only at h
    have hs3 : 3 ≤ s.length := by
      have h5 := congrArg List.length h3
      rw [List.length_take] at h5
      simp [str] at h5
      omega
    by_cases hh : (s.drop 3).head? = some '\n'
    · rw [if_pos hh] at h
      cases hd : s.drop 3 with
      | nil => rw [hd] at hh; simp at hh
      | cons y ys =>
        rw [hd] at hh
        simp only [List.head?_cons, Option.some.injEq] at hh
        subst hh
        cases hfc : fenceClose ((s.drop 3).drop 1) with
        | none => rw [hfc] at h; simp at h
        | some q =>
          obtain ⟨k, cl⟩ := q
          rw [hfc] at h
          have hp : (3 + 1 + k + cl, ((s.drop 3).drop 1).take k) = (len, cap) :=
            Option.some.inj h
          have e1 : len = 3 + 1 + k + cl := (congrArg Prod.fst hp).symm
          have e2 : cap = ((s.drop 3).drop 1).take k := (congrArg Prod.snd hp).symm
          obtain ⟨hcl, hle, htk⟩ := fenceClose_some _ k cl hfc
          have hys : (s.drop 3).drop 1 = ys := by rw [hd]; rfl
          have hcaplen : cap.length = k := by
            rw [e2, List.length_take]
            rw [hys] at hle ⊢
            omega
          have hslen : s.length = 3 + (s.drop 3).length := by
            rw [List.length_drop]
            omega
          refine ⟨by omega, ?_, ?_⟩
          · rw [hslen, hd]
            rw [hys] at hle
            simp
            omega
          · refine ⟨['\n'], if cl = 4 then ['\n'] else [], Or.inr rfl, ?_, ?_, ?_⟩
            · by_cases hc4 : cl = 4
              · rw [if_pos hc4]; exact Or.inr rfl
              · rw [if_neg hc4]; exact Or.inl rfl
            · by_cases hc4 : cl = 4
              · rw [if_pos hc4]
                simp only [List.length_singleton]
                omega
              · rw [if_neg hc4]
                have hcl3 : cl = 3 := by rcases hcl with h' | h' <;> omega
                simp only [List.length_nil, List.length_singleton]
                omega
            · rw [e1, show 3 + 1 + k + cl = 3 + ((k + cl) + 1) by omega,
                List.take_add s 3 ((k + cl) + 1), h3, hd, List.take_succ_cons]
              rw [← hys, htk, ← e2]
              have hb : (if cl = 4 then str "\n```" else str "```") =
                  (if cl = 4 then ['\n'] else []) ++ str "```" := by
                by_cases hc4 : cl = 4
                · rw [if_pos hc4, if_pos hc4]; exact rfl
                · rw [if_neg hc4, if_neg hc4]; exact rfl
              rw [hb]
              simp [str]
    · rw [if_neg hh] at h
      cases hfc : fenceClose ((s.drop 3).drop 0) with
      | none => rw [hfc] at h; simp at h
      | some q =>
        obtain ⟨k, cl⟩ := q
        rw [hfc] at h
        have hp : (3 + 0 + k + cl, ((s.drop 3).drop 0).take k) = (len, cap) :=
          Option.some.inj h
        have e1 : len = 3 + 0 + k + cl := (congrArg Prod.fst hp).symm
        have e2 : cap = ((s.drop 3).drop 0).take k := (congrArg Prod.snd hp).symm
        obtain ⟨hcl, hle, htk⟩ := fenceClose_some _ k cl hfc
        have hys : (s.drop 3).drop 0 = s.drop 3 := by rfl
        rw [hys] at hle htk e2
        have hcaplen : cap.length = k := by
          rw [e2, List.length_take]
          omega
        have hslen : s.length = 3 + (s.drop 3).length := by
          rw [List.length_drop]
          have h5 := congrArg List.length h3
          rw [List.length_take] at h5
          simp [str] at h5
          omega
        refine ⟨by omega, by omega, ?_⟩
        refine ⟨[], if cl = 4 then ['\n'] else [], Or.inl rfl, ?_, ?_, ?_⟩
        · by_cases hc4 : cl = 4
          · rw [if_pos hc4]; exact Or.inr rfl
          · rw [if_neg hc4]; exact Or.inl rfl
        · by_cases hc4 : cl = 4
          · rw [if_pos hc4]
            simp only [List.length_nil, List.length_singleton]
            omega
          · rw [if_neg hc4]
            have hcl3 : cl = 3 := by rcases hcl with h' | h' <;> omega
            simp only [List.length_nil]
            omega
        · rw [e1, show 3 + 0 + k + cl = 3 + (k + cl) by omega,
            List.take_add s 3 (k + cl), h3, htk, ← e2]
          have hb : (if cl = 4 then str "\n```" else str "```") =
              (if cl = 4 then ['\n'] else []) ++ str "```" := by
            by_cases hc4 : cl = 4
            · rw [if_pos hc4, if_pos hc4]; exact rfl
            · rw [if_neg hc4, if_neg hc4]; exact rfl
          rw [hb]
          simp [str]
  · rw [if_neg h3] at h
    simp at h

theorem scanFirst_some {α : Type} (f : Str → Option α) :
    ∀ (s : Str) (i : Nat) (a : α), scanFirst f s = some (i, a) →
      f (s.drop i) = some a ∧ i < s.length ∧ ∀ j < i, f (s.drop j) = none := by
  intro s
  induction s with
  | nil => intro i a h; simp [scanFirst] at h
  | cons c rest ih =>
    intro i a h
    simp only [scanFirst] at h
    cases hf : f (c :: rest) with
    | some b =>
      rw [hf] at h
      obtain ⟨rfl, rfl⟩ := by simpa using h
      exact ⟨hf, by simp, by omega⟩
    | none =>
      rw [hf] at h
      cases hs : scanFirst f rest with
      | none => rw [hs] at h; simp at h
      | some p =>
        obtain ⟨i', a'⟩ := p
        rw [hs] at h
        obtain ⟨rfl, rfl⟩ := by simpa using h
        obtain ⟨h1, h2, h3⟩ := ih i' a' hs
        refine ⟨h1, by simpa using h2, ?_⟩
        intro j hj
        cases j with
        | zero => simpa using hf
        | succ j' => exact h3 j' (by omega)

/-! ### Selection lemmas for `findEarliestMatch` -/

theorem foldl_pick_mem (l : List PatternMatch) (m : PatternMatch) :
    l.foldl (fun e c => if c.index < e.index then c else e) m ∈ m :: l := by
  induction l generalizing m with
  | nil => simp
  | cons x xs ih =>
    rw [List.foldl_cons]
    rcases List.mem_cons.mp (ih (if x.index < m.index then x else m)) with h | h
    · by_cases hx : x.index < m.index
      · rw [if_pos hx] at h
        simp [hx, h]
      · rw [if_neg hx] at h
        simp [hx, h]
    · simp [List.mem_cons.mpr (Or.inr h)]

theorem foldl_pick_min (l : List PatternMatch) (m : PatternMatch) :
    (l.foldl (fun e c => if c.index < e.index then c else e) m).index ≤ m.index ∧
    ∀ c ∈ l, (l.foldl (fun e c => if c.index < e.index then c else e) m).index ≤ c.index := by
  induction l generalizing m with
  | nil => exact ⟨Nat.le_refl _, by simp⟩
  | cons x xs ih =>
    rw [List.foldl_cons]
    obtain ⟨ih1, ih2⟩ := ih (if x.index < m.index then x else m)
    have hm : (if x.index < m.index then x else m).index ≤ m.index := by
      by_cases hx : x.index < m.index
      · rw [if_pos hx]; omega
      · rw [if_neg hx]
    have hx2 : (if x.index < m.index then x else m).index ≤ x.index := by
      by_cases hx : x.index < m.index
      · rw [if_pos hx]
      · rw [if_neg hx]; omega
    refine ⟨Nat.le_trans ih1 hm, ?_⟩
    intro c hc
    rcases List.mem_cons.mp hc with rfl | hc
    · exact Nat.le_trans ih1 hx2
    · exact ih2 c hc

theorem foldl_pick_find (l : List PatternMatch) (m : PatternMatch) :
    (m :: l).find?
        (fun c => decide (c.index =
          (l.foldl (fun e c => if c.index < e.index then c else e) m).index)) =
      some (l.foldl (fun e c => if c.index < e.index then c else e) m) := by
  induction l generalizing m with
  | nil => simp [List.find?]
  | cons x xs ih =>
    rw [List.foldl_cons]
    obtain ⟨hmin1, hmin2⟩ := foldl_pick_min xs (if x.index < m.index then x else m)
    by_cases hx : x.index < m.index
    · rw [if_pos hx] at hmin1 ⊢
      have hne : ¬(m.index =
          (xs.foldl (fun e c => if c.index < e.index then c else e) x).index) := by
        omega
      rw [List.find?_cons_of_neg _ (by simpa using hne)]
      exact ih x
    · rw [if_neg hx] at hmin1 ⊢
      have := ih m
      by_cases hm : m.index =
          (xs.foldl (fun e c => if c.index < e.index then c else e) m).index
      · rw [List.find?_cons_of_pos _ (by simpa using hm)] at this ⊢
        exact this
      · rw [List.find?_cons_of_neg _ (by simpa using hm)] at this ⊢
        have hnx : ¬(x.index =
            (xs.foldl (fun e c => if c.index < e.index then c else e) m).index) := by
          omega
        rw [List.find?_cons_of_neg _ (by simpa using hnx)]
        exact this

theorem findEarliestMatch_mem (s : Str) (m : PatternMatch)
    (h : findEarliestMatch s = some m) : m ∈ candidateMatches s := by
  unfold findEarliestMatch at h
  cases hc : candidateMatches s with
  | nil => rw [hc] at h; simp at h
  | cons m0 rest =>
    rw [hc] at h
    have hm : m = rest.foldl (fun e c => if c.index < e.index then c else e) m0 :=
      (Option.some.inj h).symm
    rw [hm]
    exact foldl_pick_mem rest m0

/-- Every match produced by `findEarliestMatch` comes from one of the
five pattern scans, carrying its scan position and captures. -/
theorem mem_candidateMatches (s : Str) (m : PatternMatch)
    (h : m ∈ candidateMatches s) :
    (∃ i len h' t, scanFirst linkAt s = some (i, (len, h', t)) ∧
      m = ⟨i, len, t, str "a", some h'⟩) ∨
    (∃ i len c, scanFirst (delimAt '`') s = some (i, (len, c)) ∧
      m = ⟨i, len, c, str "code", none⟩) ∨
    (∃ i len c, scanFirst (delimAt '*') s = some (i, (len, c)) ∧
      m = ⟨i, len, c, str "b", none⟩) ∨
    (∃ i len c, scanFirst (delimAt '_') s = some (i, (len, c)) ∧
      m = ⟨i, len, c, str "i", none⟩) ∨
    (∃ i len c, scanFirst (delimAt '~') s = some (i, (len, c)) ∧
      m = ⟨i, len, c, str "s", none⟩) := by
  unfold candidateMatches at h
  simp only [List.mem_append] at h
  rcases h with ((((h | h) | h) | h) | h)
  · left
    cases hsc : scanFirst linkAt s with
    | none => rw [hsc] at h; simp at h
    | some p =>
      rw [hsc] at h
      obtain ⟨i, len, h', t⟩ := p
      dsimp only at h
      simp only [List.mem_singleton] at h
      exact ⟨i, len, h', t, rfl, h⟩
  · right; left
    cases hsc : scanFirst (delimAt '`') s with
    | none => rw [hsc] at h; simp at h
    | some p =>
      rw [hsc] at h
      obtain ⟨i, len, c⟩ := p
      dsimp only at h
      simp only [List.mem_singleton] at h
      exact ⟨i, len, c, rfl, h⟩
  · right; right; left
    cases hsc : scanFirst (delimAt '*') s with
    | none => rw [hsc] at h; simp at h
    | some p =>
      rw [hsc] at h
      obtain ⟨i, len, c⟩ := p
      dsimp only at h
      simp only [List.mem_singleton] at h
      exact ⟨i, len, c, rfl, h⟩
  · right; right; right; left
    cases hsc : scanFirst (delimAt '_') s with
    | none => rw [hsc] at h; simp at h
    | some p =>
      rw [hsc] at h
      obtain ⟨i, len, c⟩ := p
      dsimp only at h
      simp only [List.mem_singleton] at h
      exact ⟨i, len, c, rfl, h⟩
  · right; right; right; right
    cases hsc : scanFirst (delimAt '~') s with
    | none => rw [hsc] at h; simp at h
    | some p =>
      rw [hsc] at h
      obtain ⟨i, len, c⟩ := p
      dsimp only at h
      simp only [List.mem_singleton] at h
      exact ⟨i, len, c, rfl, h⟩

theorem findEarliestMatch_bounds (s : Str) (m : PatternMatch)
    (h : findEarliestMatch s = some m) :
    1 ≤ m.length ∧ m.index + m.length ≤ s.length := by
  rcases mem_candidateMatches s m (findEarliestMatch_mem s m h) with
    ⟨i, len, h', t, hsc, rfl⟩ | ⟨i, len, c, hsc, rfl⟩ | ⟨i, len, c, hsc, rfl⟩ |
      ⟨i, len, c, hsc, rfl⟩ | ⟨i, len, c, hsc, rfl⟩
  · obtain ⟨hf, hi, _⟩ := scanFirst_some linkAt s i _ hsc
    obtain ⟨he, _, _, hle, _⟩ := linkAt_some _ len h' t hf
    rw [List.length_drop] at hle
    dsimp only
    exact ⟨by omega, by omega⟩
  all_goals
    obtain ⟨hf, hi, _⟩ := scanFirst_some _ s i _ hsc
    obtain ⟨he, _, hle, _⟩ := delimAt_some _ _ len c hf
    rw [List.length_drop] at hle
    dsimp only
    exact ⟨by omega, by omega⟩

theorem fenceScan_bounds (s : Str) (i len : Nat) (cap : Str)
    (h : scanFirst fenceAt s = some (i, (len, cap))) :
    1 ≤ len ∧ i + len ≤ s.length := by
  obtain ⟨hf, hi, _⟩ := scanFirst_some fenceAt s i (len, cap) h
  obtain ⟨h6, hle, _⟩ := fenceAt_some _ len cap hf
  rw [List.length_drop] at hle
  exact ⟨by omega, by omega⟩

theorem parseLineF_stable :
    ∀ (f g : Nat) (s : Str), s.length < f → s.length < g →
      parseLineF f s = parseLineF g s := by
  intro f
  induction f with
  | zero => intro g s hf; omega
  | succ f ih =>
    intro g s hf hg
    cases g with
    | zero => omega
    | succ g' =>
      simp only [parseLineF]
      by_cases hs : s = []
      · rw [if_pos hs, if_pos hs]
      · rw [if_neg hs, if_neg hs]
        cases hm : findEarliestMatch s with
        | none => rfl
        | some m =>
          obtain ⟨h1, h2⟩ := findEarliestMatch_bounds s m hm
          have hpos : 0 < s.length := List.length_pos.mpr hs
          have hd : (s.drop (m.index + m.length)).length < f := by
            rw [List.length_drop]; omega
          have hd' : (s.drop (m.index + m.length)).length < g' := by
            rw [List.length_drop]; omega
          dsimp only
          rw [ih g' _ hd hd']

theorem convertMarkdownToHtmlF_stable :
    ∀ (f g : Nat) (s : Str), s.length < f → s.length < g →
      convertMarkdownToHtmlF f s = convertMarkdownToHtmlF g s := by
  intro f
  induction f with
  | zero => intro g s hf; omega
  | succ f ih =>
    intro g s hf hg
    cases g with
    | zero => omega
    | succ g' =>
      simp only [convertMarkdownToHtmlF]
      cases hm : scanFirst fenceAt s with
      | none => rfl
      | some p =>
        obtain ⟨i, len, cap⟩ := p
        obtain ⟨h1, h2⟩ := fenceScan_bounds s i len cap hm
        have hpos : 0 < s.length := by
          cases s with
          | nil => simp [scanFirst] at hm
          | cons c cs => simp
        have hd : (s.drop (i + len)).length < f := by
          rw [List.length_drop]; omega
        have hd' : (s.drop (i + len)).length < g' := by
          rw [List.length_drop]; omega
        dsimp only
        rw [ih g' _ hd hd']

/-! ### Extraction of rendered fragments -/

theorem extractNode_none_idx (n : DomNode) (i j : Nat) :
    extractNode none i n = extractNode none j n := by
  cases n with
  | text s => rfl
  | other => rfl
  | elem tag attrs children =>
    simp only [extractNode]
    have hno : ((none : Option Str) = some (str "OL")) = False := by simp
    simp only [hno, if_false]

theorem extractList_none_idx (ns : List DomNode) :
    ∀ i j, extractList none i ns = extractList none j ns := by
  induction ns with
  | nil => intro i j; rfl
  | cons n rest ih =>
    intro i j
    simp only [extractList]
    rw [extractNode_none_idx n i j,
      ih (if n.isElem then i + 1 else i) (if n.isElem then j + 1 else j)]

theorem extractFrag_cons (n : DomNode) (rest : List DomNode) :
    extractFrag (n :: rest) = extractNode none 1 n ++ extractFrag rest := by
  unfold extractFrag
  simp only [extractList]
  rw [extractList_none_idx rest _ 1]

theorem extractFrag_append (a b : List DomNode) :
    extractFrag (a ++ b) = extractFrag a ++ extractFrag b := by
  induction a with
  | nil => simp [extractFrag, extractList]
  | cons n rest ih =>
    rw [List.cons_append, extractFrag_cons, extractFrag_cons, ih, List.append_assoc]

theorem extractFrag_text (s : Str) (rest : List DomNode) :
    extractFrag (DomNode.text s :: rest) = s ++ extractFrag rest :=
  extractFrag_cons _ _

theorem extractNode_br (i : Nat) : extractNode none i brNode = ['\n'] := rfl

theorem extractNode_match_b (i len : Nat) (c : Str) (hc : c ≠ []) :
    extractNode none 1 (nodeOfMatch ⟨i, len, c, str "b", none⟩) =
      '*' :: c ++ ['*'] := by
  unfold nodeOfMatch setTextContent
  rw [if_neg hc]
  show '*' :: (c ++ []) ++ ['*'] = '*' :: c ++ ['*']
  simp

theorem extractNode_match_i (i len : Nat) (c : Str) (hc : c ≠ []) :
    extractNode none 1 (nodeOfMatch ⟨i, len, c, str "i", none⟩) =
      '_' :: c ++ ['_'] := by
  unfold nodeOfMatch setTextContent
  rw [if_neg hc]
  show '_' :: (c ++ []) ++ ['_'] = '_' :: c ++ ['_']
  simp

theorem extractNode_match_code (i len : Nat) (c : Str) (hc : c ≠ []) :
    extractNode none 1 (nodeOfMatch ⟨i, len, c, str "code", none⟩) =
      '`' :: c ++ ['`'] := by
  unfold nodeOfMatch setTextContent
  rw [if_neg hc]
  show '`' :: (c ++ []) ++ ['`'] = '`' :: c ++ ['`']
  simp

theorem extractNode_match_s (i len : Nat) (c : Str) (hc : c ≠ []) :
    extractNode none 1 (nodeOfMatch ⟨i, len, c, str "s", none⟩) =
      '~' :: c ++ ['~'] := by
  unfold nodeOfMatch setTextContent
  rw [if_neg hc]
  show '~' :: (c ++ []) ++ ['~'] = '~' :: c ++ ['~']
  simp

theorem extractNode_match_a (i len : Nat) (h t : Str)
    (hh : h ≠ []) (ht : t ≠ []) (hne : h ≠ t) :
    extractNode none 1 (nodeOfMatch ⟨i, len, t, str "a", some h⟩) =
      '<' :: h ++ '|' :: t ++ ['>'] := by
  unfold nodeOfMatch setTextContent
  dsimp only
  rw [if_neg ht, if_pos (⟨rfl, hh⟩ : str "a" = str "a" ∧ h ≠ [])]
  show (if h ≠ [] ∧ t ++ [] ≠ [] ∧ h ≠ t ++ [] then
          '<' :: h ++ '|' :: (t ++ []) ++ ['>']
        else if t ++ [] ≠ [] then t ++ [] else h) =
      '<' :: h ++ '|' :: t ++ ['>']
  rw [if_pos ⟨hh, by simp [ht], by simpa using hne⟩]
  simp

theorem extractNode_pre (cap : Str) :
    extractNode none 1 (.elem (str "PRE") noAttrs (setTextContent cap)) =
      str "```\n" ++ cap ++ str "\n```" := by
  by_cases hc : cap = []
  · subst hc
    rfl
  · unfold setTextContent
    rw [if_neg hc]
    show str "```\n" ++ (cap ++ []) ++ str "\n```" = str "```\n" ++ cap ++ str "\n```"
    simp

/-! ### Line splitting and joining -/

theorem splitNl_ne_nil (s : Str) : splitNl s ≠ [] := by
  cases s with
  | nil => simp [splitNl]
  | cons c rest =>
    simp only [splitNl]
    by_cases hc : c = '\n'
    · rw [if_pos hc]; simp
    · rw [if_neg hc]
      cases hs : splitNl rest with
      | nil => simp
      | cons l ls => simp

theorem joinNl_eq (ls : List Str) : ∀ l, joinNl (l :: ls) = l ++ joinNlTail ls := by
  induction ls with
  | nil => intro l; simp [joinNl, joinNlTail]
  | cons l2 ls2 ih =>
    intro l
    simp only [joinNl, joinNlTail]
    rw [ih l2]

theorem splitNl_join (s : Str) : joinNl (splitNl s) = s := by
  induction s with
  | nil => rfl
  | cons c rest ih =>
    simp only [splitNl]
    by_cases hc : c = '\n'
    · rw [if_pos hc]
      obtain ⟨l, ls, hs⟩ : ∃ l ls, splitNl rest = l :: ls := by
        cases hsp : splitNl rest with
        | nil => exact absurd hsp (splitNl_ne_nil rest)
        | cons l ls => exact ⟨l, ls, rfl⟩
      rw [hs]
      simp only [joinNl, List.nil_append]
      rw [← hs, ih, hc]
    · rw [if_neg hc]
      cases hsp : splitNl rest with
      | nil => exact absurd hsp (splitNl_ne_nil rest)
      | cons l ls =>
        cases ls with
        | nil =>
          have hl : l = rest := by
            rw [hsp] at ih
            simpa [joinNl] using ih
          simp [joinNl, hl]
        | cons l2 ls2 =>
          have hr : l ++ '\n' :: joinNl (l2 :: ls2) = rest := by
            rw [hsp] at ih
            simpa [joinNl] using ih
          simp only [joinNl]
          rw [List.cons_append, hr]

/-! ### The round trip: rendering then re-extracting is the identity on
markup strings satisfying the scan side conditions -/

theorem parseLineF_extract :
    ∀ (fuel : Nat) (s : Str), s.length < fuel → goodLineF fuel s = true →
      extractFrag (parseLineF fuel s) = s := by
  intro fuel
  induction fuel with
  | zero => intro s h; omega
  | succ f ih =>
    intro s hlen hg
    simp only [parseLineF]
    simp only [goodLineF] at hg
    by_cases hs : s = []
    · rw [if_pos hs, hs]; rfl
    · rw [if_neg hs]
      rw [if_neg hs] at hg
      cases hm : findEarliestMatch s with
      | none =>
        dsimp only
        rw [extractFrag_cons]
        show s ++ extractFrag [] = s
        simp [extractFrag, extractList]
      | some m =>
        rw [hm] at hg
        dsimp only at hg ⊢
        by_cases ha : m.tag = str "a" ∧ m.href = some m.content
        · rw [if_pos ha] at hg
          exact absurd hg (by simp)
        · rw [if_neg ha] at hg
          obtain ⟨hb1, hb2⟩ := findEarliestMatch_bounds s m hm
          have hpos : 0 < s.length := List.length_pos.mpr hs
          have hdl : (s.drop (m.index + m.length)).length < f := by
            rw [List.length_drop]; omega
          have hrec := ih _ hdl hg
          have hspan : extractNode none 1 (nodeOfMatch m) =
              (s.drop m.index).take m.length := by
            rcases mem_candidateMatches s m (findEarliestMatch_mem s m hm) with
              ⟨i, len, h', t, hsc, hmeq⟩ | ⟨i, len, c, hsc, hmeq⟩ |
                ⟨i, len, c, hsc, hmeq⟩ | ⟨i, len, c, hsc, hmeq⟩ |
                ⟨i, len, c, hsc, hmeq⟩
            · subst hmeq
              obtain ⟨hf2, _, _⟩ := scanFirst_some linkAt s i _ hsc
              obtain ⟨he, hhne, htne, _, htake⟩ := linkAt_some _ len h' t hf2
              have hne2 : h' ≠ t := by
                intro hcontra
                exact ha ⟨rfl, by dsimp only; rw [hcontra]⟩
              dsimp only
              rw [extractNode_match_a i len h' t hhne htne hne2]
              exact htake.symm
            · subst hmeq
              obtain ⟨hf2, _, _⟩ := scanFirst_some (delimAt '`') s i _ hsc
              obtain ⟨he, hcne, _, htake⟩ := delimAt_some '`' _ len c hf2
              dsimp only
              rw [extractNode_match_code i len c hcne]
              exact htake.symm
            · subst hmeq
              obtain ⟨hf2, _, _⟩ := scanFirst_some (delimAt '*') s i _ hsc
              obtain ⟨he, hcne, _, htake⟩ := delimAt_some '*' _ len c hf2
              dsimp only
              rw [extractNode_match_b i len c hcne]
              exact htake.symm
            · subst hmeq
              obtain ⟨hf2, _, _⟩ := scanFirst_some (delimAt '_') s i _ hsc
              obtain ⟨he, hcne, _, htake⟩ := delimAt_some '_' _ len c hf2
              dsimp only
              rw [extractNode_match_i i len c hcne]
              exact htake.symm
            · subst hmeq
              obtain ⟨hf2, _, _⟩ := scanFirst_some (delimAt '~') s i _ hsc
              obtain ⟨he, hcne, _, htake⟩ := delimAt_some '~' _ len c hf2
              dsimp only
              rw [extractNode_match_s i len c hcne]
              exact htake.symm
          have hpre : extractFrag
              (if 0 < m.index then [DomNode.text (s.take m.index)] else []) =
              s.take m.index := by
            by_cases h0 : 0 < m.index
            · rw [if_pos h0, extractFrag_cons]
              show s.take m.index ++ extractFrag [] = s.take m.index
              simp [extractFrag, extractList]
            · rw [if_neg h0]
              have h00 : m.index = 0 := by omega
              rw [h00, List.take_zero]
              rfl
          rw [extractFrag_append, extractFrag_cons, hrec, hpre, hspan,
            ← List.drop_drop, List.take_append_drop, List.take_append_drop]

theorem renderLines_extract (ls : List Str)
    (h : ∀ l ∈ ls, goodLine l = true) :
    extractFrag (renderLines ls) = joinNlTail ls := by
  induction ls with
  | nil => rfl
  | cons l ls2 ih =>
    simp only [renderLines, joinNlTail]
    rw [extractFrag_append, extractFrag_cons, extractNode_br]
    have hl : extractFrag (if l = [] then [] else parseSlackMarkdownLine l) = l := by
      by_cases he : l = []
      · rw [if_pos he, he]; rfl
      · rw [if_neg he]
        exact parseLineF_extract (l.length + 1) l (by omega) (h l (by simp))
    rw [hl, ih (fun l' hl' => h l' (by simp [hl']))]
    simp

theorem processInline_extract (s : Str) (h : goodInline s = true) :
    extractFrag (processInlineText s) = s := by
  unfold processInlineText
  obtain ⟨l, ls, hs⟩ : ∃ l ls, splitNl s = l :: ls := by
    cases hsp : splitNl s with
    | nil => exact absurd hsp (splitNl_ne_nil s)
    | cons l ls => exact ⟨l, ls, rfl⟩
  rw [hs]
  dsimp only
  rw [extractFrag_append]
  unfold goodInline at h
  rw [hs] at h
  simp only [List.all_cons, Bool.and_eq_true] at h
  obtain ⟨h1, h2⟩ := h
  have hl : extractFrag (if l = [] then [] else parseSlackMarkdownLine l) = l := by
    by_cases he : l = []
    · rw [if_pos he, he]; rfl
    · rw [if_neg he]
      exact parseLineF_extract (l.length + 1) l (by omega) h1
  rw [hl, renderLines_extract ls (fun l' hl' => by
    exact List.all_eq_true.mp h2 l' hl')]
  rw [← joinNl_eq, ← hs, splitNl_join]

theorem convertMarkdownToHtmlF_extract :
    ∀ (fuel : Nat) (s : Str), s.length < fuel → goodStringF fuel s = true →
      extractFrag (convertMarkdownToHtmlF fuel s) = s := by
  intro fuel
  induction fuel with
  | zero => intro s h; omega
  | succ f ih =>
    intro s hlen hg
    simp only [convertMarkdownToHtmlF]
    simp only [goodStringF] at hg
    cases hm : scanFirst fenceAt s with
    | none =>
      rw [hm] at hg
      dsimp only at hg ⊢
      by_cases hs : s = []
      · rw [if_pos hs, hs]; rfl
      · rw [if_neg hs]
        exact processInline_extract s hg
    | some p =>
      obtain ⟨i, len, cap⟩ := p
      rw [hm] at hg
      dsimp only at hg ⊢
      simp only [Bool.and_eq_true, decide_eq_true_eq] at hg
      obtain ⟨⟨hcanon, hgood⟩, hrec⟩ := hg
      obtain ⟨hf, hi, _⟩ := scanFirst_some fenceAt s i (len, cap) hm
      obtain ⟨h6, hle, a, b, hA, hB, hlen2, htake⟩ := fenceAt_some _ len cap hf
      have hab : a = ['\n'] ∧ b = ['\n'] := by
        rcases hA with rfl | rfl <;> rcases hB with rfl | rfl <;>
          simp only [List.length_nil, List.length_singleton] at hlen2 <;>
          first
          | exact ⟨rfl, rfl⟩
          | (exfalso; omega)
      obtain ⟨rfl, rfl⟩ := hab
      rw [extractFrag_append, extractFrag_cons]
      have hpre : extractFrag
          (if 0 < i then processInlineText (s.take i) else []) = s.take i := by
        by_cases h0 : 0 < i
        · rw [if_pos h0]
          exact processInline_extract _ hgood
        · rw [if_neg h0]
          have h00 : i = 0 := by omega
          rw [h00, List.take_zero]
          rfl
      rw [List.length_drop] at hle
      have hdl : (s.drop (i + len)).length < f := by
        rw [List.length_drop]; omega
      have hspan : str "```\n" ++ cap ++ str "\n```" = (s.drop i).take len := by
        rw [htake, show str "```\n" = str "```" ++ ['\n'] by decide,
          show str "\n```" = ['\n'] ++ str "```" by decide]
        simp [List.append_assoc]
      rw [hpre, extractNode_pre, ih _ hdl hrec, hspan,
        ← List.drop_drop, List.take_append_drop, List.take_append_drop]

/-- C1 fails on the code as stated: the supported-subset DOM consisting
of the single text node `<x|x>` extracts to `"<x|x>"`, but rendering
parses it as a link whose url equals its text, which the extractor
collapses to the bare text `"x"`. -/
theorem c1_counterexample :
    supportedNode (DomNode.text (str "<x|x>")) = true ∧
    extractFrag (convertMarkdownToHtml
        (extractTextWithFormatting (DomNode.text (str "<x|x>")))) ≠
      extractTextWithFormatting (DomNode.text (str "<x|x>")) :=
  ⟨rfl, by decide⟩

/-- C1 (amended): for every DOM built only from the supported tag set
whose extracted markup satisfies the renderer-scan side condition
`goodString` — no scanned link span has url equal to its text, and
every scanned fence is in canonical ```` ```\n…\n``` ```` form — the
composition extract, render, extract yields the same markup string as a
single extract. -/
theorem c1_round_trip (d : DomNode)
    (_hsup : supportedNode d = true)
    (hg : goodString (extractTextWithFormatting d) = true) :
    extractFrag (convertMarkdownToHtml (extractTextWithFormatting d)) =
      extractTextWithFormatting d :=
  convertMarkdownToHtmlF_extract _ _ (Nat.lt_succ_self _) hg

/-- Witness for `c1_round_trip` on `<div><b>Hi</b> <i>there</i></div>`. -/
theorem c1_round_trip_witness :
    supportedNode (DomNode.elem (str "DIV") noAttrs
        [DomNode.elem (str "B") noAttrs [DomNode.text (str "Hi")],
         DomNode.text (str " "),
         DomNode.elem (str "I") noAttrs [DomNode.text (str "there")]]) = true ∧
    goodString (extractTextWithFormatting (DomNode.elem (str "DIV") noAttrs
        [DomNode.elem (str "B") noAttrs [DomNode.text (str "Hi")],
         DomNode.text (str " "),
         DomNode.elem (str "I") noAttrs [DomNode.text (str "there")]])) = true ∧
    extractFrag (convertMarkdownToHtml (extractTextWithFormatting
        (DomNode.elem (str "DIV") noAttrs
          [DomNode.elem (str "B") noAttrs [DomNode.text (str "Hi")],
           DomNode.text (str " "),
           DomNode.elem (str "I") noAttrs [DomNode.text (str "there")]]))) =
      extractTextWithFormatting (DomNode.elem (str "DIV") noAttrs
        [DomNode.elem (str "B") noAttrs [DomNode.text (str "Hi")],
         DomNode.text (str " "),
         DomNode.elem (str "I") noAttrs [DomNode.text (str "there")]]) :=
  ⟨by decide, by decide, c1_round_trip _ (by decide) (by decide)⟩

/-- C6: the inline tokenizer.  Whenever `findEarliestMatch` selects a
match, that match is one of the five candidate pattern matches, its
start index is minimal among them, it is the first candidate attaining
that index (candidates are listed in the fixed priority order: link,
code, bold, italic, strike), a link match carries its nonempty href;
the line parser emits the preceding text as a plain text node, the
match's element, and resumes after the span; with no match the whole
remainder becomes a single text node. -/
theorem c6_tokenizer_selection (s : Str) :
    (∀ m, findEarliestMatch s = some m →
      m ∈ candidateMatches s ∧
      (∀ m' ∈ candidateMatches s, m.index ≤ m'.index) ∧
      (candidateMatches s).find? (fun c => decide (c.index = m.index)) = some m ∧
      (m.tag = str "a" → ∃ h, m.href = some h ∧ h ≠ []) ∧
      parseSlackMarkdownLine s =
        (if 0 < m.index then [DomNode.text (s.take m.index)] else []) ++
        nodeOfMatch m :: parseSlackMarkdownLine (s.drop (m.index + m.length))) ∧
    (findEarliestMatch s = none → s ≠ [] →
      parseSlackMarkdownLine s = [DomNode.text s]) := by
  constructor
  · intro m hm
    refine ⟨findEarliestMatch_mem s m hm, ?_, ?_, ?_, ?_⟩
    · intro m' hm'
      unfold findEarliestMatch at hm
      cases hc : candidateMatches s with
      | nil => rw [hc] at hm'; simp at hm'
      | cons m0 rest =>
        rw [hc] at hm hm'
        have hm2 : m = rest.foldl (fun e c => if c.index < e.index then c else e) m0 :=
          (Option.some.inj hm).symm
        obtain ⟨ha1, ha2⟩ := foldl_pick_min rest m0
        rw [hm2]
        rcases List.mem_cons.mp hm' with rfl | hmem
        · exact ha1
        · exact ha2 m' hmem
    · unfold findEarliestMatch at hm
      cases hc : candidateMatches s with
      | nil => rw [hc] at hm; simp at hm
      | cons m0 rest =>
        rw [hc] at hm
        have hm2 : m = rest.foldl (fun e c => if c.index < e.index then c else e) m0 :=
          (Option.some.inj hm).symm
        rw [hm2]
        exact foldl_pick_find rest m0
    · rcases mem_candidateMatches s m (findEarliestMatch_mem s m hm) with
        ⟨i, len, h', t, hsc, rfl⟩ | ⟨i, len, c, hsc, rfl⟩ | ⟨i, len, c, hsc, rfl⟩ |
          ⟨i, len, c, hsc, rfl⟩ | ⟨i, len, c, hsc, rfl⟩
      · intro _
        obtain ⟨hf2, _, _⟩ := scanFirst_some linkAt s i _ hsc
        obtain ⟨_, hhne, _, _, _⟩ := linkAt_some _ len h' t hf2
        exact ⟨h', rfl, hhne⟩
      all_goals
        intro htag
        dsimp only at htag
        exact absurd htag (by decide)
    · have hs : s ≠ [] := by
        intro hx
        rw [hx, show findEarliestMatch ([] : Str) = none from rfl] at hm
        exact Option.noConfusion hm
      obtain ⟨hb1, hb2⟩ := findEarliestMatch_bounds s m hm
      have hpos : 0 < s.length := List.length_pos.mpr hs
      show parseLineF (s.length + 1) s = _
      simp only [parseLineF]
      rw [if_neg hs, hm]
      dsimp only
      rw [parseLineF_stable s.length ((s.drop (m.index + m.length)).length + 1) _
        (by rw [List.length_drop]; omega) (Nat.lt_succ_self _)]
      rfl
  · intro hn hs
    show parseLineF (s.length + 1) s = [DomNode.text s]
    simp only [parseLineF]
    rw [if_neg hs, hn]

/-- Witness for `c6_tokenizer_selection` on the line `a*b*_c_`: the
bold span at index 1 is selected and the parse emits text, bold
element, remainder. -/
theorem c6_tokenizer_selection_witness :
    ((⟨1, 3, str "b", str "b", none⟩ : PatternMatch) ∈
      candidateMatches (str "a*b*_c_")) ∧
    parseSlackMarkdownLine (str "a*b*_c_") =
      (if 0 < (1 : Nat) then [DomNode.text ((str "a*b*_c_").take 1)] else []) ++
      nodeOfMatch ⟨1, 3, str "b", str "b", none⟩ ::
        parseSlackMarkdownLine ((str "a*b*_c_").drop (1 + 3)) := by
  have h := (c6_tokenizer_selection (str "a*b*_c_")).1
    ⟨1, 3, str "b", str "b", none⟩ (by decide)
  exact ⟨h.1, h.2.2.2.2⟩

/-- C7: when the renderer's fence scan finds a fenced span, the
rendered fragment is the inline-tokenized text before the span,
followed by exactly one `PRE` block node holding the capture verbatim
as plain text (no inline tokenization applied), followed by the
rendering of the rest; and the matched span is the capture surrounded
by the fences with at most one leading and one trailing newline
trimmed. -/
theorem c7_fence_isolation (s : Str) (i len : Nat) (cap : Str)
    (h : scanFirst fenceAt s = some (i, (len, cap))) :
    convertMarkdownToHtml s =
      (if 0 < i then processInlineText (s.take i) else []) ++
      DomNode.elem (str "PRE") noAttrs (setTextContent cap) ::
        convertMarkdownToHtml (s.drop (i + len)) ∧
    ∃ a b : Str, (a = [] ∨ a = ['\n']) ∧ (b = [] ∨ b = ['\n']) ∧
      (s.drop i).take len = str "```" ++ a ++ cap ++ b ++ str "```" := by
  constructor
  · have hs : s ≠ [] := by
      intro hx
      rw [hx, show scanFirst fenceAt ([] : Str) = none from rfl] at h
      exact Option.noConfusion h
    obtain ⟨hb1, hb2⟩ := fenceScan_bounds s i len cap h
    have hpos : 0 < s.length := List.length_pos.mpr hs
    show convertMarkdownToHtmlF (s.length + 1) s = _
    simp only [convertMarkdownToHtmlF]
    rw [h]
    dsimp only
    rw [convertMarkdownToHtmlF_stable s.length ((s.drop (i + len)).length + 1) _
      (by rw [List.length_drop]; omega) (Nat.lt_succ_self _)]
    rfl
  · obtain ⟨hf, hi, _⟩ := scanFirst_some fenceAt s i (len, cap) h
    obtain ⟨_, _, a, b, hA, hB, _, htake⟩ := fenceAt_some _ len cap hf
    exact ⟨a, b, hA, hB, htake⟩

/-- Witness for `c7_fence_isolation` on `a```x```b`. -/
theorem c7_fence_isolation_witness :
    convertMarkdownToHtml (str "a```x```b") =
      (if 0 < (1 : Nat) then processInlineText ((str "a```x```b").take 1) else []) ++
      DomNode.elem (str "PRE") noAttrs (setTextContent (str "x")) ::
        convertMarkdownToHtml ((str "a```x```b").drop (1 + 7)) ∧
    (∃ a b : Str, (a = [] ∨ a = ['\n']) ∧ (b = [] ∨ b = ['\n']) ∧
      ((str "a```x```b").drop 1).take 7 = str "```" ++ a ++ str "x" ++ b ++ str "```") :=
  c7_fence_isolation (str "a```x```b") 1 7 (str "x") (by decide)

/-- Witness for `c4_teardown_restores` at a concrete page state. -/
theorem c4_teardown_restores_witness :
    (hide ⟨fun _ => str "false", fun _ => true⟩
        ⟨true, true, true, some 3, [1, 2], some 4, some 5⟩).2.interceptorInstalled
      = false ∧
    (hide ⟨fun _ => str "false", fun _ => true⟩
        ⟨true, true, true, some 3, [1, 2], some 4, some 5⟩).1.inert 1 = false ∧
    (hide ⟨fun _ => str "false", fun _ => true⟩
        ⟨true, true, true, some 3, [1, 2], some 4, some 5⟩).1.editable 3
      = str "true" := by
  refine ⟨(c4_teardown_restores _ _).1, ?_, ?_⟩
  · exact (c4_teardown_restores _ _).2.2.2.1 1 (by decide)
  · exact (c4_teardown_restores _ _).2.2.2.2.1 3 rfl

end SlackPatch
